import Mathlib

/-!
# redhawk: the flag builder (`cmd/redhawk/cmd/builder/flag.go`)

A shallow embedding of the flag registry, of the one-time materialization
`Flag.flag`, of the binder `SetCommandFlags` and of the pre-execution hook it
installs, followed by the properties of the specification checked against it.

Pointers are addresses: a `*pflag.Flag` is an index into the heap of allocated
flag objects, a `*Flag` is an index into `FlagRegistry`, a `*cobra.Command` is
an index into the command table.  The libraries the code calls (the method set
of `*pflag.FlagSet` reached through reflection, the admission check of
`AddFlag`, the hooks other code installed on commands) are parameters of the
model, collected in `Lib`.
-/

namespace Redhawk

/-! ## Data model -/

/-- The values an `interface{}` field of a descriptor holds.  `strPtr`, `boolPtr`
are the containers produced by `aws.String` and `aws.Bool`; `valuePtr` is a
pointer to an object implementing `pflag.Value`, with its printed form. -/
inductive GoValue where
  | nil
  | str (s : String)
  | bool (b : Bool)
  | strPtr (addr : Nat)
  | boolPtr (addr : Nat)
  | valuePtr (addr : Nat) (printed : String)
  deriving DecidableEq, Repr

/-- The concrete flag object `pflag.Flag`, with the fields the builder and the
constructors write. -/
structure PFlag where
  Name : String
  Shorthand : String
  Usage : String
  Value : GoValue
  DefValue : String
  Hidden : Bool
  deriving DecidableEq, Repr

/-- The descriptor `Flag`.  The last field is the private cache slot
`pflag *pflag.Flag`: `none` is the nil pointer. -/
structure Flag where
  Name : String
  Shorthand : String
  Usage : String
  Value : GoValue
  DefValue : GoValue
  DefValuePerCommand : List (String × GoValue)
  FlagAddMethod : String
  DefinedOn : List String
  Hidden : Bool
  pflag : Option Nat
  deriving DecidableEq, Repr

/-- The ways the builder can panic. -/
inductive Panic where
  /-- No method of that name: `MethodByName` gave the zero `reflect.Value` and
  `Call` on it panics. -/
  | callOnZeroValue
  /-- The method exists but `Call` panicked (arity or type mismatch, or the
  method itself). -/
  | callPanicked
  /-- A nil pointer was dereferenced. -/
  | nilDereference
  /-- The flag set refused the flag in `AddFlag`. -/
  | addFlagRefused
  deriving DecidableEq, Repr

/-- A method of `*pflag.FlagSet` as `reflect` calls it on the fresh flag set of
`flag()`: from the positional arguments to the flags the flag set holds
afterwards, or `none` when the call panics. -/
abbrev Method := List GoValue → Option (List PFlag)

/-- The two shapes of `PersistentPreRunE` a command can hold: the closure built
by `SetCommandFlags`, which captures `flagsForCommand` (pointers into the
registry), or a hook installed by other code, named by an identifier. -/
inductive HookE where
  | closure (flagsForCommand : List Nat)
  | external (id : Nat)
  deriving DecidableEq, Repr

/-- The part of `cobra.Command` the builder reads and writes.  `flags` is
`cmd.Flags()`: the attached flag objects in attachment order. -/
structure Command where
  Use : String
  flags : List Nat
  parent : Option Nat
  PersistentPreRunE : Option HookE
  PersistentPreRun : Option Nat
  deriving DecidableEq, Repr

/-- The program state: the global registry, the heap of flag objects, the
command tree, and the configuration store seen at its boundary, as the list of
`viper.BindPFlag(key, flag)` calls it received (`none` is a nil flag). -/
structure World where
  FlagRegistry : List Flag
  heap : List PFlag
  commands : List Command
  viper : List (String × Option Nat)
  deriving DecidableEq, Repr

/-- The code outside the builder, as parameters. -/
structure Lib where
  /-- The method set of `*pflag.FlagSet` as `MethodByName` sees it; `none` is
  the zero value. -/
  methodByName : String → Option Method
  /-- Whether `FlagSet.AddFlag` accepts the flag at this address into a flag
  set with these members (it panics otherwise). -/
  addFlagAccepts : List PFlag → List Nat → Nat → Bool
  /-- The error-reporting hooks installed by other code. -/
  preRunE : Nat → Nat → List String → World → Option String × World
  /-- The plain hooks installed by other code. -/
  preRun : Nat → Nat → List String → World → World

/-- Result of `flag()`: the flag pointer, or a panic; both with the receiver
and the heap as the call leaves them. -/
inductive FlagResult where
  | ok (p : Nat) (fl : Flag) (heap : List PFlag)
  | panicked (why : Panic) (fl : Flag) (heap : List PFlag)
  deriving DecidableEq, Repr

/-! ## Materialization -/

/-- The helper `reflectValueOf`: wraps each value, in order. -/
def reflectValueOf (values : List GoValue) : List GoValue :=
  values.foldl (fun results v => results ++ [v]) []

/-- The argument list `flag()` assembles. -/
def Flag.inputs (fl : Flag) : List GoValue :=
  let inputs := [fl.Value, GoValue.str fl.Name]
  let inputs := if fl.FlagAddMethod != "Var" then inputs ++ [fl.DefValue] else inputs
  inputs ++ [GoValue.str fl.Usage]

/-- The call `fs.Lookup(name)` on the transient flag set of `flag()`. -/
def lookupFresh (fs : List PFlag) (name : String) : Option PFlag :=
  fs.find? (fun f => f.Name == name)

/-- The method `(fl *Flag) flag()`: return the cached flag object, or build it
through the reflective call on a fresh flag set, set its shorthand and hidden
attributes, cache it and return it. -/
def Flag.flag (lib : Lib) (fl : Flag) (heap : List PFlag) : FlagResult :=
  match fl.pflag with
  | some p => .ok p fl heap
  | none =>
    match lib.methodByName fl.FlagAddMethod with
    | none => .panicked .callOnZeroValue fl heap
    | some m =>
      match m (reflectValueOf fl.inputs) with
      | none => .panicked .callPanicked fl heap
      | some fs =>
        match lookupFresh fs fl.Name with
        | none => .panicked .nilDereference fl heap
        | some f =>
          let f := { f with Shorthand := fl.Shorthand, Hidden := fl.Hidden }
          .ok heap.length { fl with pflag := some heap.length } (heap ++ [f])

/-- The construction operation resolves: the method exists, the reflective
call succeeds and registers a flag under the descriptor's name. -/
def Flag.resolves (lib : Lib) (fl : Flag) : Bool :=
  match lib.methodByName fl.FlagAddMethod with
  | none => false
  | some m =>
    match m (reflectValueOf fl.inputs) with
    | none => false
    | some fs => (lookupFresh fs fl.Name).isSome

/-! ## Binding a command -/

/-- Modelled from the spec: the helper `tools.IsStringInArray` of package
`pkg/tools`, which is not among the sources; the spec reads it as "descriptors
whose applicableCommands contains the command's identifier". -/
def IsStringInArray (s : String) (arr : List String) : Bool :=
  arr.contains s

/-- Result of a step of the binder: a value, or a panic; both with the world as
the code leaves it. -/
inductive BindResult (α : Type) where
  | ok (a : α) (w : World)
  | panicked (why : Panic) (w : World)
  deriving DecidableEq, Repr

/-- The world a binder result carries. -/
def BindResult.world {α : Type} : BindResult α → World
  | .ok _ w => w
  | .panicked _ w => w

/-- The write of `flag()` through `fl := &FlagRegistry[i]`, and its allocation. -/
def World.afterFlag (w : World) (i : Nat) (fl : Flag) (heap : List PFlag) : World :=
  { w with FlagRegistry := w.FlagRegistry.set i fl, heap := heap }

/-- The effect of `cmd.Flags().AddFlag(p)` when the flag set accepts `p`. -/
def World.attach (w : World) (c : Nat) (cmd : Command) (p : Nat) : World :=
  { w with commands := w.commands.set c { cmd with flags := cmd.flags ++ [p] } }

/-- The loop `for i := range FlagRegistry` of `SetCommandFlags`, over the
remaining indices, with `flagsForCommand` as built so far. -/
def bindLoop (lib : Lib) (c : Nat) : List Nat → List Nat → World → BindResult (List Nat)
  | [], flagsForCommand, w => .ok flagsForCommand w
  | i :: rest, flagsForCommand, w =>
    match w.commands[c]?, w.FlagRegistry[i]? with
    | some cmd, some fl =>
      if IsStringInArray cmd.Use fl.DefinedOn then
        match fl.flag lib w.heap with
        | .panicked why fl1 heap1 => .panicked why (w.afterFlag i fl1 heap1)
        | .ok p fl1 heap1 =>
          let w1 := w.afterFlag i fl1 heap1
          if lib.addFlagAccepts heap1 cmd.flags p then
            bindLoop lib c rest (flagsForCommand ++ [i]) (w1.attach c cmd p)
          else
            .panicked .addFlagRefused w1
      else
        bindLoop lib c rest flagsForCommand w
    | _, _ => .panicked .nilDereference w

/-- The function `SetCommandFlags(cmd)`: attach the applicable flags, then
install the closure over `flagsForCommand` as `cmd.PersistentPreRunE`. -/
def SetCommandFlags (lib : Lib) (w : World) (c : Nat) : BindResult Unit :=
  match bindLoop lib c (List.range w.FlagRegistry.length) [] w with
  | .panicked why w1 => .panicked why w1
  | .ok flagsForCommand w1 =>
    match w1.commands[c]? with
    | none => .panicked .nilDereference w1
    | some cmd =>
      .ok () { w1 with
        commands := w1.commands.set c
          { cmd with PersistentPreRunE := some (.closure flagsForCommand) } }

/-- Whether the registry entry at index `i` is applicable to a command
identifier: the test `tools.IsStringInArray(cmd.Use, fl.DefinedOn)`. -/
def isApplicable (use : String) (registry : List Flag) (i : Nat) : Bool :=
  match registry[i]? with
  | some fl => IsStringInArray use fl.DefinedOn
  | none => false

/-- The registry indices of the descriptors applicable to a command identifier,
in registry order. -/
def applicableTo (use : String) (registry : List Flag) : List Nat :=
  (List.range registry.length).filter (isApplicable use registry)

/-- The cache slot of the registry entry at index `i`. -/
def World.flagOf (w : World) (i : Nat) : Option Nat :=
  (w.FlagRegistry[i]?).bind (fun fl => fl.pflag)

/-- The relation between the world before and the world after steps of the
binding loop for a command identifier: the store is as it was, the heap has
not shrunk, and the registry entries are as they were except for cache slots
that were nil and belong to descriptors applicable to the command, which may
now hold a flag object allocated since. -/
structure Grows (use : String) (w w1 : World) : Prop where
  viper : w1.viper = w.viper
  heap : w.heap.length ≤ w1.heap.length
  len : w1.FlagRegistry.length = w.FlagRegistry.length
  reg : ∀ (i : Nat) (fl : Flag), w.FlagRegistry[i]? = some fl →
    ∃ q, w1.FlagRegistry[i]? = some { fl with pflag := q } ∧
      (fl.pflag.isSome → q = fl.pflag) ∧
      (IsStringInArray use fl.DefinedOn = false → q = fl.pflag) ∧
      (q = fl.pflag ∨ ∃ a, q = some a ∧ w.heap.length ≤ a)

/-! ## The installed hook -/

/-- A hook invocation made while a hook runs: the command whose hook slot was
called, which of the two forms, and the arguments passed. -/
structure HookCall where
  owner : Nat
  errorForm : Bool
  cmd : Nat
  args : List String
  deriving DecidableEq, Repr

/-- What a hook run leaves: the error returned (`none` is nil), the world, and
the hook invocations it made, in order. -/
structure HookOutcome where
  err : Option String
  world : World
  calls : List HookCall
  deriving DecidableEq, Repr

/-- The call `cmd.Flags().Lookup(name)`: the first attached flag object of that
name, or `none` for nil. -/
def lookupFlag (w : World) (c : Nat) (name : String) : Option Nat :=
  match w.commands[c]? with
  | none => none
  | some cmd =>
    cmd.flags.find? (fun p => match w.heap[p]? with
      | some f => f.Name == name
      | none => false)

/-- The call `viper.BindPFlag(key, flag)`, as the store receives it. -/
def World.bindPFlag (w : World) (key : String) (flag : Option Nat) : World :=
  { w with viper := w.viper ++ [(key, flag)] }

/-- The loop `for _, fl := range flagsForCommand` of the closure.  The elements
are pointers to registry entries, read when the hook runs. -/
def pushFlagValues (c : Nat) : List Nat → World → World
  | [], w => w
  | i :: rest, w =>
    match w.FlagRegistry[i]? with
    | some fl => pushFlagValues c rest (w.bindPFlag fl.Name (lookupFlag w c fl.Name))
    | none => pushFlagValues c rest w

/-- Running a `PersistentPreRunE` hook with `(cmd, args)`.  A hook of other
code is a step of `lib`.  The closure of `SetCommandFlags` pushes the flag
values, then consults `cmd.Parent()`: its error-reporting hook if set, else its
plain hook if set.  The parent's hook may again be such a closure, so the run
is bounded by `fuel`; `none` means it has not returned within the bound (or
`cmd` is not a command). -/
def runPreRunE (lib : Lib) :
    Nat → HookE → Nat → List String → World → Option HookOutcome
  | _, .external id, cmd, args, w =>
    some ⟨(lib.preRunE id cmd args w).1, (lib.preRunE id cmd args w).2, []⟩
  | 0, .closure _, _, _, _ => none
  | fuel + 1, .closure flagsForCommand, cmd, args, w =>
    match w.commands[cmd]? with
    | none => none
    | some _ =>
      let w1 := pushFlagValues cmd flagsForCommand w
      match (w1.commands[cmd]?).bind (fun c => c.parent) with
      | none => some ⟨none, w1, []⟩
      | some p =>
        match w1.commands[p]? with
        | none => none
        | some parent =>
          match parent.PersistentPreRunE with
          | some preRun =>
            match runPreRunE lib fuel preRun cmd args w1 with
            | none => none
            | some r =>
              match r.err with
              | some err => some ⟨some err, r.world, ⟨p, true, cmd, args⟩ :: r.calls⟩
              | none => some ⟨none, r.world, ⟨p, true, cmd, args⟩ :: r.calls⟩
          | none =>
            match parent.PersistentPreRun with
            | some id => some ⟨none, lib.preRun id cmd args w1, [⟨p, false, cmd, args⟩]⟩
            | none => some ⟨none, w1, []⟩

/-- Invoking the hook installed on command `c`, on `c` itself. -/
def invokeHook (lib : Lib) (fuel : Nat) (w : World) (c : Nat) (args : List String) :
    Option HookOutcome :=
  match w.commands[c]? with
  | none => none
  | some cmd =>
    match cmd.PersistentPreRunE with
    | none => none
    | some hook => runPreRunE lib fuel hook c args w

/-- Calling the hook installed on command `c` with the arguments `(cmd, args)`:
the function value in the slot `c.PersistentPreRunE` applied to a command that
need not be `c`. -/
def invokeHookOn (lib : Lib) (fuel : Nat) (w : World) (c cmd : Nat) (args : List String) :
    Option HookOutcome :=
  match w.commands[c]? with
  | none => none
  | some owner =>
    match owner.PersistentPreRunE with
    | none => none
    | some hook => runPreRunE lib fuel hook cmd args w

/-! ## The registry of the program and a concrete library -/

/-- Modelled from the spec: the constant `constants.EmptyString` of package
`pkg/constants`, which is not among the sources. -/
def EmptyString : String := ""

/-- Modelled from the spec: the constant `constants.DefaultOutputFormat` of
package `pkg/constants`, which is not among the sources; the spec gives the
default of `output` as "table". -/
def DefaultOutputFormat : String := "table"

/-- The initial value of the global `FlagRegistry`; each `aws.String` and
`aws.Bool` allocates a container of its own. -/
def FlagRegistry : List Flag :=
  [ { Name := "region", Shorthand := "r", Usage := "Run command to specific region",
      Value := .strPtr 0, DefValue := .str EmptyString, DefValuePerCommand := [],
      FlagAddMethod := "StringVar", DefinedOn := ["list"], Hidden := false, pflag := none },
    { Name := "config", Shorthand := "",
      Usage := "configuration file path for scanning resources",
      Value := .strPtr 1, DefValue := .str EmptyString, DefValuePerCommand := [],
      FlagAddMethod := "StringVar", DefinedOn := ["list"], Hidden := false, pflag := none },
    { Name := "detail", Shorthand := "", Usage := "detailed options for scanning",
      Value := .boolPtr 2, DefValue := .bool false, DefValuePerCommand := [],
      FlagAddMethod := "BoolVar", DefinedOn := ["list"], Hidden := false, pflag := none },
    { Name := "all", Shorthand := "A", Usage := "Apply all regions of provider for command",
      Value := .boolPtr 3, DefValue := .bool false, DefValuePerCommand := [],
      FlagAddMethod := "BoolVar", DefinedOn := ["list"], Hidden := false, pflag := none },
    { Name := "resources", Shorthand := "",
      Usage := "[Required]Resource list of provider for dynamic search(Delimiter: comma)",
      Value := .strPtr 4, DefValue := .str EmptyString, DefValuePerCommand := [],
      FlagAddMethod := "StringVar", DefinedOn := ["list"], Hidden := false, pflag := none },
    { Name := "output", Shorthand := "o", Usage := "detailed options for scanning",
      Value := .strPtr 5, DefValue := .str DefaultOutputFormat, DefValuePerCommand := [],
      FlagAddMethod := "StringVar", DefinedOn := ["list"], Hidden := false, pflag := none } ]

/-- Modelled from the spec: the constructor operations of the flag set, "for
each supported flag kind (string-valued, boolean-valued, pre-built-value) each
accepting (value container, name, [default], usage)".  A call with arguments of
another shape panics. -/
def specMethodByName : String → Option Method
  | "StringVar" => some fun
    | [.strPtr a, .str name, .str value, .str usage] =>
      some [⟨name, "", usage, .strPtr a, value, false⟩]
    | _ => none
  | "BoolVar" => some fun
    | [.boolPtr a, .str name, .bool value, .str usage] =>
      some [⟨name, "", usage, .boolPtr a, toString value, false⟩]
    | _ => none
  | "Var" => some fun
    | [.valuePtr a printed, .str name, .str usage] =>
      some [⟨name, "", usage, .valuePtr a printed, printed, false⟩]
    | _ => none
  | _ => none

/-- A library for concrete runs: the constructors of `specMethodByName`, a flag
set that accepts every flag, one error-reporting hook (number 0) that fails
with "parent failed" and leaves the world as it is while every other one
succeeds, and plain hooks that change nothing. -/
def specLib : Lib where
  methodByName := specMethodByName
  addFlagAccepts := fun _ _ _ => true
  preRunE := fun id _ _ w => (if id = 0 then some "parent failed" else none, w)
  preRun := fun _ _ _ w => w

/-- Whether a binder result is a panic, and which. -/
def BindResult.outcome {α : Type} : BindResult α → Option Panic
  | .ok _ _ => none
  | .panicked why _ => some why

/-- The `output` descriptor of the registry. -/
def outputFlag : Flag :=
  { Name := "output", Shorthand := "o", Usage := "detailed options for scanning",
    Value := .strPtr 5, DefValue := .str DefaultOutputFormat, DefValuePerCommand := [],
    FlagAddMethod := "StringVar", DefinedOn := ["list"], Hidden := false, pflag := none }

/-- A descriptor whose construction operation names no method of the flag set. -/
def unknownOpFlag : Flag :=
  { outputFlag with Name := "broken", Shorthand := "", FlagAddMethod := "doesNotExist" }

/-- The `output` descriptor with a default of its own for command `list`. -/
def outputFlagPerCommand : Flag :=
  { outputFlag with DefValuePerCommand := [("list", .str "json")] }

/-- A command tree for concrete runs: the root `redhawk` (command 0), whose
error-reporting hook is hook 0 of `specLib` and fails, with the children `list`
(command 1) and `scan` (command 2). -/
def demoCommands : List Command :=
  [ ⟨"redhawk", [], none, some (.external 0), none⟩,
    ⟨"list", [], some 0, none, none⟩,
    ⟨"scan", [], some 0, none, none⟩ ]

/-- The world at program start with a registry holding only `output`. -/
def demoWorld : World := ⟨[outputFlag], [], demoCommands, []⟩

/-- The world at program start with the registry of the program. -/
def startWorld : World := ⟨FlagRegistry, [], demoCommands, []⟩

/-- The world at program start with a registry holding `output` and then a
descriptor with an unknown construction operation. -/
def unknownOpWorld : World := ⟨[outputFlag, unknownOpFlag], [], demoCommands, []⟩

/-- The world at program start with a registry holding only `output`, which
declares a default of its own for command `list`. -/
def perCommandWorld : World := ⟨[outputFlagPerCommand], [], demoCommands, []⟩

/-- A world whose root has only the plain hook (hook 7) and the child `list`. -/
def plainWorld : World :=
  ⟨[outputFlag], [], [⟨"redhawk", [], none, none, some 7⟩, ⟨"list", [], some 0, none, none⟩], []⟩

/-- A world where `list` (command 2) is a child of `resources` (command 1),
which has no hook, under the root `redhawk`, whose hook fails. -/
def deepWorld : World :=
  ⟨[outputFlag], [],
    [ ⟨"redhawk", [], none, some (.external 0), none⟩,
      ⟨"resources", [], some 0, none, none⟩,
      ⟨"list", [], some 1, none, none⟩ ], []⟩

/-- A world whose only command is `list`, without a parent. -/
def rootWorld : World := ⟨[outputFlag], [], [⟨"list", [], none, none, none⟩], []⟩

/-- A world with the root `redhawk` (command 0), whose error-reporting hook is
hook 0 of `specLib` and fails, its children `list` (command 1) and `scan`
(command 2), neither with a hook, and `sub` (command 3), a child of `scan`. -/
def foreignWorld : World :=
  ⟨[outputFlag], [],
    [ ⟨"redhawk", [], none, some (.external 0), none⟩,
      ⟨"list", [], some 0, none, none⟩,
      ⟨"scan", [], some 0, none, none⟩,
      ⟨"sub", [], some 2, none, none⟩ ], []⟩

/-- The same tree as `foreignWorld`, where the root has only the plain hook
(hook 7). -/
def foreignPlainWorld : World :=
  ⟨[outputFlag], [],
    [ ⟨"redhawk", [], none, none, some 7⟩,
      ⟨"list", [], some 0, none, none⟩,
      ⟨"scan", [], some 0, none, none⟩,
      ⟨"sub", [], some 2, none, none⟩ ], []⟩

/-! ## Reachable descriptors -/

/-- The descriptor states the program can produce: a descriptor as a registry
literal writes it (the cache slot is unexported, so a literal leaves it nil),
and what `flag()` makes of a reachable descriptor when it returns. -/
inductive Flag.Reachable (lib : Lib) : Flag → Prop where
  | literal (fl : Flag) : fl.pflag = none → Flag.Reachable lib fl
  | materialized (fl fl1 : Flag) (heap heap1 : List PFlag) (p : Nat) :
      Flag.Reachable lib fl → fl.flag lib heap = .ok p fl1 heap1 → Flag.Reachable lib fl1

/-! ## Materialization: lemmas -/

theorem Flag.flag_cached (lib : Lib) (fl : Flag) (heap : List PFlag) (p : Nat)
    (h : fl.pflag = some p) : fl.flag lib heap = .ok p fl heap := by
  simp only [Flag.flag, h]

theorem Flag.resolves_congr (lib : Lib) (fl : Flag) (q : Option Nat) :
    Flag.resolves lib { fl with pflag := q } = Flag.resolves lib fl := rfl

theorem Flag.flag_fresh (lib : Lib) (fl : Flag) (heap : List PFlag)
    (hn : fl.pflag = none) (hr : fl.resolves lib = true) :
    ∃ f, fl.flag lib heap
      = .ok heap.length { fl with pflag := some heap.length } (heap ++ [f]) := by
  cases hm : lib.methodByName fl.FlagAddMethod with
  | none => simp [Flag.resolves, hm] at hr
  | some m =>
    cases hc : m (reflectValueOf fl.inputs) with
    | none => simp [Flag.resolves, hm, hc] at hr
    | some fs =>
      cases hl : lookupFresh fs fl.Name with
      | none => simp [Flag.resolves, hm, hc, hl] at hr
      | some f =>
        exact ⟨{ f with Shorthand := fl.Shorthand, Hidden := fl.Hidden },
          by simp only [Flag.flag, hn, hm, hc, hl]⟩

theorem Flag.flag_unresolved (lib : Lib) (fl : Flag) (heap : List PFlag)
    (hn : fl.pflag = none) (hr : fl.resolves lib = false) :
    ∃ why, fl.flag lib heap = .panicked why fl heap ∧
      (lib.methodByName fl.FlagAddMethod = none → why = .callOnZeroValue) := by
  cases hm : lib.methodByName fl.FlagAddMethod with
  | none => exact ⟨.callOnZeroValue, by simp only [Flag.flag, hn, hm], fun _ => rfl⟩
  | some m =>
    cases hc : m (reflectValueOf fl.inputs) with
    | none =>
      exact ⟨.callPanicked, by simp only [Flag.flag, hn, hm, hc], fun h => by simp at h⟩
    | some fs =>
      cases hl : lookupFresh fs fl.Name with
      | none =>
        exact ⟨.nilDereference, by simp only [Flag.flag, hn, hm, hc, hl],
          fun h => by simp at h⟩
      | some f => simp [Flag.resolves, hm, hc, hl] at hr

/-- A call of `flag()` that returns leaves the descriptor with only its cache
slot written, and an already cached slot as it was. -/
theorem Flag.flag_ok_inv (lib : Lib) (fl fl1 : Flag) (heap heap1 : List PFlag) (p : Nat)
    (h : fl.flag lib heap = .ok p fl1 heap1) :
    fl1 = { fl with pflag := some p } ∧
      (fl.pflag.isSome → fl.pflag = some p ∧ heap1 = heap) ∧
      (fl.pflag = none → fl.resolves lib = true ∧ p = heap.length) ∧
      heap.length ≤ heap1.length := by
  cases hp : fl.pflag with
  | some q =>
    rw [Flag.flag_cached lib fl heap q hp] at h
    injection h with h1 h2 h3
    subst h1 h2 h3
    refine ⟨?_, fun _ => ⟨rfl, rfl⟩, fun h => by simp at h, Nat.le_refl _⟩
    cases fl
    simp_all
  | none =>
    cases hr : fl.resolves lib with
    | false =>
      obtain ⟨why, hw, _⟩ := Flag.flag_unresolved lib fl heap hp hr
      rw [hw] at h
      cases h
    | true =>
      obtain ⟨f, hf⟩ := Flag.flag_fresh lib fl heap hp hr
      rw [hf] at h
      injection h with h1 h2 h3
      subst h1 h2 h3
      exact ⟨rfl, fun h => by simp at h, fun _ => ⟨rfl, rfl⟩, by simp⟩

/-- A call of `flag()` that panics has written nothing. -/
theorem Flag.flag_panicked_inv (lib : Lib) (fl fl1 : Flag) (heap heap1 : List PFlag)
    (why : Panic) (h : fl.flag lib heap = .panicked why fl1 heap1) :
    fl1 = fl ∧ heap1 = heap ∧ fl.pflag = none := by
  cases hp : fl.pflag with
  | some q =>
    rw [Flag.flag_cached lib fl heap q hp] at h
    cases h
  | none =>
    cases hr : fl.resolves lib with
    | false =>
      obtain ⟨why1, hw, _⟩ := Flag.flag_unresolved lib fl heap hp hr
      rw [hw] at h
      injection h with h1 h2 h3
      exact ⟨h2.symm, h3.symm, rfl⟩
    | true =>
      obtain ⟨f, hf⟩ := Flag.flag_fresh lib fl heap hp hr
      rw [hf] at h
      cases h

/-- A reachable descriptor whose cache slot is set has a construction operation
that resolves. -/
theorem Flag.Reachable.cached_resolves (lib : Lib) (fl : Flag)
    (h : Flag.Reachable lib fl) : fl.pflag.isSome → fl.resolves lib = true := by
  induction h with
  | literal fl hn => intro hs; simp [hn] at hs
  | materialized fl fl1 heap heap1 p _ hf ih =>
    intro _
    obtain ⟨h1, h2, h3, _⟩ := Flag.flag_ok_inv lib fl fl1 heap heap1 p hf
    subst h1
    rw [Flag.resolves_congr]
    cases hp : fl.pflag with
    | some q => exact ih (by simp [hp])
    | none => exact (h3 hp).1

/-! ## The installed hook: lemmas -/

/-- The push loop writes to the store only. -/
theorem pushFlagValues_frame (c : Nat) (owned : List Nat) (w : World) :
    (pushFlagValues c owned w).FlagRegistry = w.FlagRegistry ∧
      (pushFlagValues c owned w).heap = w.heap ∧
      (pushFlagValues c owned w).commands = w.commands := by
  induction owned generalizing w with
  | nil => exact ⟨rfl, rfl, rfl⟩
  | cons i rest ih =>
    unfold pushFlagValues
    cases hi : w.FlagRegistry[i]? with
    | none => simpa using ih w
    | some fl =>
      simp only []
      obtain ⟨h1, h2, h3⟩ := ih (w.bindPFlag fl.Name (lookupFlag w c fl.Name))
      exact ⟨h1, h2, h3⟩

theorem lookupFlag_congr (w w1 : World) (c : Nat) (name : String)
    (hh : w1.heap = w.heap) (hc : w1.commands = w.commands) :
    lookupFlag w1 c name = lookupFlag w c name := by
  unfold lookupFlag
  rw [hh, hc]

theorem pushFlagValues_viper_aux (c : Nat) (w : World) (owned : List Nat)
    (hv : ∀ i ∈ owned, i < w.FlagRegistry.length) (w1 : World)
    (hr : w1.FlagRegistry = w.FlagRegistry) (hh : w1.heap = w.heap)
    (hc : w1.commands = w.commands) :
    ∃ pushed, (pushFlagValues c owned w1).viper = w1.viper ++ pushed ∧
      List.Forall₂ (fun i b => ∃ fl, w.FlagRegistry[i]? = some fl ∧
        b = (fl.Name, lookupFlag w c fl.Name)) owned pushed := by
  induction owned generalizing w1 with
  | nil => exact ⟨[], by simp [pushFlagValues], List.Forall₂.nil⟩
  | cons i rest ih =>
    have hi : i < w.FlagRegistry.length := hv i (List.mem_cons_self _ _)
    obtain ⟨fl, hfl⟩ : ∃ fl, w.FlagRegistry[i]? = some fl :=
      ⟨w.FlagRegistry[i], List.getElem?_eq_getElem hi⟩
    have hfl1 : w1.FlagRegistry[i]? = some fl := by rw [hr]; exact hfl
    obtain ⟨pushed, h1, h2⟩ := ih (fun j hj => hv j (List.mem_cons_of_mem _ hj))
      (w1.bindPFlag fl.Name (lookupFlag w1 c fl.Name)) hr hh hc
    refine ⟨(fl.Name, lookupFlag w c fl.Name) :: pushed, ?_, ?_⟩
    · unfold pushFlagValues
      simp only [hfl1]
      rw [h1, lookupFlag_congr w w1 c fl.Name hh hc]
      simp [World.bindPFlag]
    · exact List.Forall₂.cons ⟨fl, hfl, rfl⟩ h2

/-- The push loop appends one binding per owned flag to the store, under the
flag's name, in the order of `flagsForCommand`. -/
theorem pushFlagValues_viper (c : Nat) (w : World) (owned : List Nat)
    (hv : ∀ i ∈ owned, i < w.FlagRegistry.length) :
    ∃ pushed, (pushFlagValues c owned w).viper = w.viper ++ pushed ∧
      List.Forall₂ (fun i b => ∃ fl, w.FlagRegistry[i]? = some fl ∧
        b = (fl.Name, lookupFlag w c fl.Name)) owned pushed :=
  pushFlagValues_viper_aux c w owned hv w rfl rfl rfl

theorem invokeHook_closure (lib : Lib) (fuel : Nat) (w : World) (c : Nat)
    (args : List String) (cmd : Command) (owned : List Nat)
    (hc : w.commands[c]? = some cmd)
    (hh : cmd.PersistentPreRunE = some (.closure owned)) :
    invokeHook lib fuel w c args = runPreRunE lib fuel (.closure owned) c args w := by
  simp only [invokeHook, hc, hh]

theorem invokeHookOn_closure (lib : Lib) (fuel : Nat) (w : World) (c cmd : Nat)
    (args : List String) (owner : Command) (owned : List Nat)
    (hc : w.commands[c]? = some owner)
    (hh : owner.PersistentPreRunE = some (.closure owned)) :
    invokeHookOn lib fuel w c cmd args
      = runPreRunE lib fuel (.closure owned) cmd args w := by
  simp only [invokeHookOn, hc, hh]

/-- Running the hook of `c` on `c` itself is the call with `cmd = c`. -/
theorem invokeHook_eq_invokeHookOn (lib : Lib) (fuel : Nat) (w : World) (c : Nat)
    (args : List String) :
    invokeHook lib fuel w c args = invokeHookOn lib fuel w c c args := rfl

/-- The flag handle the hook passes for a name is nil exactly when the flag set
of the command it runs on holds no flag object of that name. -/
theorem lookupFlag_isSome_iff (w : World) (cmd : Nat) (x : Command) (name : String)
    (hx : w.commands[cmd]? = some x) :
    (lookupFlag w cmd name).isSome ↔
      ∃ q, q ∈ x.flags ∧ ∃ f, w.heap[q]? = some f ∧ f.Name = name := by
  simp only [lookupFlag, hx, List.find?_isSome]
  constructor
  · rintro ⟨q, hq, hpq⟩
    cases hf : w.heap[q]? with
    | none => simp [hf] at hpq
    | some f => exact ⟨q, hq, f, hf, by simpa [hf] using hpq⟩
  · rintro ⟨q, hq, f, hf, hn⟩
    exact ⟨q, hq, by simp [hf, hn]⟩

theorem runPreRunE_no_parent (lib : Lib) (fuel : Nat) (w : World) (c : Nat)
    (args : List String) (cmd : Command) (owned : List Nat)
    (hc : w.commands[c]? = some cmd) (hp : cmd.parent = none) :
    runPreRunE lib (fuel + 1) (.closure owned) c args w
      = some ⟨none, pushFlagValues c owned w, []⟩ := by
  have hc1 : (pushFlagValues c owned w).commands[c]? = some cmd := by
    rw [(pushFlagValues_frame c owned w).2.2]; exact hc
  simp only [runPreRunE, hc, hc1, Option.bind, hp]

theorem runPreRunE_parent_E (lib : Lib) (fuel : Nat) (w : World) (c : Nat)
    (args : List String) (cmd : Command) (owned : List Nat) (p : Nat) (parent : Command)
    (hookP : HookE) (hc : w.commands[c]? = some cmd) (hp : cmd.parent = some p)
    (hP : w.commands[p]? = some parent) (hE : parent.PersistentPreRunE = some hookP) :
    runPreRunE lib (fuel + 1) (.closure owned) c args w
      = (runPreRunE lib fuel hookP c args (pushFlagValues c owned w)).map
          (fun r => ⟨r.err, r.world, ⟨p, true, c, args⟩ :: r.calls⟩) := by
  have hc1 : (pushFlagValues c owned w).commands[c]? = some cmd := by
    rw [(pushFlagValues_frame c owned w).2.2]; exact hc
  have hP1 : (pushFlagValues c owned w).commands[p]? = some parent := by
    rw [(pushFlagValues_frame c owned w).2.2]; exact hP
  simp only [runPreRunE, hc, hc1, Option.bind, hp, hP1, hE]
  cases hr : runPreRunE lib fuel hookP c args (pushFlagValues c owned w) with
  | none => rfl
  | some r =>
    cases he : r.err with
    | none => simp [he]
    | some e => simp [he]

theorem runPreRunE_parent_plain (lib : Lib) (fuel : Nat) (w : World) (c : Nat)
    (args : List String) (cmd : Command) (owned : List Nat) (p : Nat) (parent : Command)
    (id : Nat) (hc : w.commands[c]? = some cmd) (hp : cmd.parent = some p)
    (hP : w.commands[p]? = some parent) (hE : parent.PersistentPreRunE = none)
    (hR : parent.PersistentPreRun = some id) :
    runPreRunE lib (fuel + 1) (.closure owned) c args w
      = some ⟨none, lib.preRun id c args (pushFlagValues c owned w),
          [⟨p, false, c, args⟩]⟩ := by
  have hc1 : (pushFlagValues c owned w).commands[c]? = some cmd := by
    rw [(pushFlagValues_frame c owned w).2.2]; exact hc
  have hP1 : (pushFlagValues c owned w).commands[p]? = some parent := by
    rw [(pushFlagValues_frame c owned w).2.2]; exact hP
  simp only [runPreRunE, hc, hc1, Option.bind, hp, hP1, hE, hR]

theorem runPreRunE_parent_bare (lib : Lib) (fuel : Nat) (w : World) (c : Nat)
    (args : List String) (cmd : Command) (owned : List Nat) (p : Nat) (parent : Command)
    (hc : w.commands[c]? = some cmd) (hp : cmd.parent = some p)
    (hP : w.commands[p]? = some parent) (hE : parent.PersistentPreRunE = none)
    (hR : parent.PersistentPreRun = none) :
    runPreRunE lib (fuel + 1) (.closure owned) c args w
      = some ⟨none, pushFlagValues c owned w, []⟩ := by
  have hc1 : (pushFlagValues c owned w).commands[c]? = some cmd := by
    rw [(pushFlagValues_frame c owned w).2.2]; exact hc
  have hP1 : (pushFlagValues c owned w).commands[p]? = some parent := by
    rw [(pushFlagValues_frame c owned w).2.2]; exact hP
  simp only [runPreRunE, hc, hc1, Option.bind, hp, hP1, hE, hR]

/-- When the parent's error-reporting hook is itself a closure of
`SetCommandFlags`, running it on a child never returns: it consults the
child's parent, finds itself, and calls itself again. -/
theorem runPreRunE_closure_parent_diverges (lib : Lib) (c : Nat) (args : List String)
    (cmd : Command) (p : Nat) (parent : Command) (ownedP : List Nat)
    (hp : cmd.parent = some p) (hE : parent.PersistentPreRunE = some (.closure ownedP))
    (fuel : Nat) : ∀ (owned : List Nat) (w : World), w.commands[c]? = some cmd →
      w.commands[p]? = some parent →
      runPreRunE lib fuel (.closure owned) c args w = none := by
  induction fuel with
  | zero => intro owned w _ _; rfl
  | succ n ih =>
    intro owned w hc hP
    rw [runPreRunE_parent_E lib n w c args cmd owned p parent _ hc hp hP hE]
    have hf := pushFlagValues_frame c owned w
    rw [ih ownedP (pushFlagValues c owned w) (by rw [hf.2.2]; exact hc)
      (by rw [hf.2.2]; exact hP)]
    rfl

/-! ## Binding a command: lemmas -/

theorem Flag.with_pflag_self (fl : Flag) : { fl with pflag := fl.pflag } = fl := by
  cases fl; rfl

theorem list_set_self {α : Type} (l : List α) (i : Nat) (a : α) (h : l[i]? = some a) :
    l.set i a = l := by
  apply List.ext_getElem?
  intro j
  rw [List.getElem?_set]
  by_cases hij : i = j
  · subst hij
    obtain ⟨hlt, _⟩ := List.getElem?_eq_some.mp h
    simp [hlt, h]
  · simp [hij]

theorem Grows.refl (use : String) (w : World) : Grows use w w where
  viper := rfl
  heap := Nat.le_refl _
  len := rfl
  reg := fun i fl h =>
    ⟨fl.pflag, by rw [Flag.with_pflag_self]; exact h, fun _ => rfl, fun _ => rfl,
      Or.inl rfl⟩

theorem Grows.trans (use : String) (w w1 w2 : World) (h1 : Grows use w w1)
    (h2 : Grows use w1 w2) : Grows use w w2 where
  viper := h2.viper.trans h1.viper
  heap := Nat.le_trans h1.heap h2.heap
  len := h2.len.trans h1.len
  reg := by
    intro i fl h
    obtain ⟨q1, e1, a1, b1, c1⟩ := h1.reg i fl h
    obtain ⟨q2, e2, a2, b2, c2⟩ := h2.reg i _ e1
    refine ⟨q2, e2, ?_, ?_, ?_⟩
    · intro hs
      have hq1 : q1 = fl.pflag := a1 hs
      have : q2 = q1 := a2 (by simpa [hq1] using hs)
      rw [this, hq1]
    · intro hn
      have hq1 : q1 = fl.pflag := b1 hn
      have : q2 = q1 := b2 hn
      rw [this, hq1]
    · rcases c2 with c2 | ⟨a, ha, hle⟩
      · rcases c1 with c1 | ⟨a, ha, hle⟩
        · exact Or.inl (c2.trans c1)
        · exact Or.inr ⟨a, c2.trans ha, hle⟩
      · exact Or.inr ⟨a, ha, Nat.le_trans h1.heap hle⟩

theorem Grows.isApplicable_eq (use : String) (w w1 : World) (h : Grows use w w1)
    (i : Nat) : isApplicable use w1.FlagRegistry i = isApplicable use w.FlagRegistry i := by
  unfold isApplicable
  cases hi : w.FlagRegistry[i]? with
  | none =>
    have : w1.FlagRegistry[i]? = none := by
      rw [List.getElem?_eq_none_iff] at hi ⊢
      rw [h.len]; exact hi
    rw [this]
  | some fl =>
    obtain ⟨q, e, _⟩ := h.reg i fl hi
    rw [e]

theorem Grows.afterFlag (use : String) (w : World) (i : Nat) (fl : Flag)
    (q : Option Nat) (heap1 : List PFlag) (hi : w.FlagRegistry[i]? = some fl)
    (happ : IsStringInArray use fl.DefinedOn = true)
    (hq : fl.pflag.isSome → q = fl.pflag)
    (hq2 : q = fl.pflag ∨ ∃ a, q = some a ∧ w.heap.length ≤ a)
    (hh : w.heap.length ≤ heap1.length) :
    Grows use w (w.afterFlag i { fl with pflag := q } heap1) where
  viper := rfl
  heap := hh
  len := by simp [World.afterFlag]
  reg := by
    intro j flj hj
    by_cases hij : i = j
    · subst hij
      rw [hi] at hj
      injection hj with hj
      subst hj
      obtain ⟨hlt, _⟩ := List.getElem?_eq_some.mp hi
      refine ⟨q, by simp [World.afterFlag, hlt], hq, ?_, hq2⟩
      intro hn
      rw [happ] at hn
      cases hn
    · refine ⟨flj.pflag, ?_, fun _ => rfl, fun _ => rfl, Or.inl rfl⟩
      rw [Flag.with_pflag_self]
      simp [World.afterFlag, hij, hj]

theorem bindLoop_stop (lib : Lib) (c : Nat) (rest ffc : List Nat) (w w1 : World)
    (cmd : Command) (why : Panic) (hc : w.commands[c]? = some cmd)
    (hg : Grows cmd.Use w w1) (hcmds : w1.commands = w.commands)
    (hb : bindLoop lib c rest ffc w = .panicked why w1) :
    ∃ owned ps tail,
      owned ++ tail = rest.filter (isApplicable cmd.Use w.FlagRegistry) ∧
      Grows cmd.Use w (bindLoop lib c rest ffc w).world ∧
      (bindLoop lib c rest ffc w).world.commands
        = w.commands.set c { cmd with flags := cmd.flags ++ ps } ∧
      owned.map (bindLoop lib c rest ffc w).world.flagOf = ps.map some ∧
      (∀ a w2, bindLoop lib c rest ffc w = .ok a w2 → a = ffc ++ owned ∧ tail = []) := by
  refine ⟨[], [], rest.filter (isApplicable cmd.Use w.FlagRegistry), rfl, ?_, ?_, rfl, ?_⟩
  · rw [hb]; exact hg
  · rw [hb]
    simp only [BindResult.world, List.append_nil]
    rw [hcmds, list_set_self _ _ _ hc]
  · intro a w2 h
    rw [hb] at h
    cases h

/-- What the binding loop does, over any list of remaining indices: up to the
point where it stops, it has attached the cached flags of the applicable
descriptors met so far, in order, written cache slots only, and on completion
it has recorded exactly the applicable indices. -/
theorem bindLoop_spec (lib : Lib) (c : Nat) :
    ∀ (rest ffc : List Nat) (w : World) (cmd : Command), w.commands[c]? = some cmd →
    ∃ owned ps tail,
      owned ++ tail = rest.filter (isApplicable cmd.Use w.FlagRegistry) ∧
      Grows cmd.Use w (bindLoop lib c rest ffc w).world ∧
      (bindLoop lib c rest ffc w).world.commands
        = w.commands.set c { cmd with flags := cmd.flags ++ ps } ∧
      owned.map (bindLoop lib c rest ffc w).world.flagOf = ps.map some ∧
      (∀ a w2, bindLoop lib c rest ffc w = .ok a w2 → a = ffc ++ owned ∧ tail = []) := by
  intro rest
  induction rest with
  | nil =>
    intro ffc w cmd hc
    refine ⟨[], [], [], rfl, Grows.refl _ _, ?_, rfl, ?_⟩
    · simp only [bindLoop, BindResult.world, List.append_nil]
      rw [list_set_self _ _ _ hc]
    · intro a w2 h
      simp only [bindLoop] at h
      injection h with h1 h2
      simp [h1]
  | cons i rest ih =>
    intro ffc w cmd hc
    cases hi : w.FlagRegistry[i]? with
    | none =>
      exact bindLoop_stop lib c _ ffc w w cmd .nilDereference hc (Grows.refl _ _) rfl
        (by simp only [bindLoop, hc, hi])
    | some fl =>
      cases happ : IsStringInArray cmd.Use fl.DefinedOn with
      | false =>
        have hb : bindLoop lib c (i :: rest) ffc w = bindLoop lib c rest ffc w := by
          simp [bindLoop, hc, hi, happ]
        have hfil : (i :: rest).filter (isApplicable cmd.Use w.FlagRegistry)
            = rest.filter (isApplicable cmd.Use w.FlagRegistry) := by
          simp [List.filter_cons, isApplicable, hi, happ]
        rw [hb, hfil]
        exact ih ffc w cmd hc
      | true =>
        cases hf : fl.flag lib w.heap with
        | panicked why fl1 heap1 =>
          obtain ⟨e1, e2, _⟩ := Flag.flag_panicked_inv lib fl fl1 w.heap heap1 why hf
          subst e1 e2
          have hg : Grows cmd.Use w (w.afterFlag i fl1 w.heap) := by
            have := Grows.afterFlag cmd.Use w i fl1 fl1.pflag w.heap hi happ (fun _ => rfl)
              (Or.inl rfl) (Nat.le_refl _)
            rwa [Flag.with_pflag_self] at this
          exact bindLoop_stop lib c _ ffc w _ cmd why hc hg rfl
            (by simp only [bindLoop, hc, hi, happ, hf, if_true])
        | ok p fl1 heap1 =>
          obtain ⟨e1, e2, e3, e4⟩ := Flag.flag_ok_inv lib fl fl1 w.heap heap1 p hf
          have hg : Grows cmd.Use w (w.afterFlag i fl1 heap1) := by
            rw [e1]
            refine Grows.afterFlag cmd.Use w i fl (some p) heap1 hi happ
              (fun hs => (e2 hs).1.symm) ?_ e4
            cases hpf : fl.pflag with
            | some q => exact Or.inl ((e2 (by simp [hpf])).1.symm.trans hpf)
            | none => exact Or.inr ⟨p, rfl, by rw [(e3 hpf).2]⟩
          cases hacc : lib.addFlagAccepts heap1 cmd.flags p with
          | false =>
            exact bindLoop_stop lib c _ ffc w _ cmd .addFlagRefused hc hg rfl
              (by simp [bindLoop, hc, hi, happ, hf, hacc])
          | true =>
            have hb : bindLoop lib c (i :: rest) ffc w
                = bindLoop lib c rest (ffc ++ [i])
                    ((w.afterFlag i fl1 heap1).attach c cmd p) := by
              simp [bindLoop, hc, hi, happ, hf, hacc]
            obtain ⟨hclt, _⟩ := List.getElem?_eq_some.mp hc
            obtain ⟨hilt, _⟩ := List.getElem?_eq_some.mp hi
            have hc2 : ((w.afterFlag i fl1 heap1).attach c cmd p).commands[c]?
                = some { cmd with flags := cmd.flags ++ [p] } := by
              simp [World.attach, World.afterFlag, hclt]
            have hg2 : Grows cmd.Use w ((w.afterFlag i fl1 heap1).attach c cmd p) :=
              ⟨hg.viper, hg.heap, hg.len, hg.reg⟩
            obtain ⟨owned, ps, tail, h1, h2, h3, h4, h5⟩ :=
              ih (ffc ++ [i]) _ _ hc2
            rw [hb]
            refine ⟨i :: owned, p :: ps, tail, ?_, Grows.trans _ _ _ _ hg2 h2, ?_, ?_, ?_⟩
            · have hpi : isApplicable cmd.Use w.FlagRegistry i = true := by
                simp [isApplicable, hi, happ]
              rw [List.filter_cons, if_pos hpi, List.cons_append, h1]
              congr 1
              exact List.filter_congr (fun j _ => Grows.isApplicable_eq _ _ _ hg2 j)
            · rw [h3]
              simp [World.attach, World.afterFlag, List.set_set]
            · rw [List.map_cons, List.map_cons, h4]
              congr 1
              have hreg : ((w.afterFlag i fl1 heap1).attach c cmd p).FlagRegistry[i]?
                  = some fl1 := by
                simp [World.attach, World.afterFlag, hilt]
              obtain ⟨q, eq1, eq2, _⟩ := h2.reg i fl1 hreg
              have hq : q = some p := by
                rw [eq2 (by rw [e1]; rfl)]
                rw [e1]
              simp [World.flagOf, eq1, hq]
            · intro a w2 h
              obtain ⟨ha, ht⟩ := h5 a w2 h
              exact ⟨by rw [ha]; simp, ht⟩

theorem SetCommandFlags_nil_cmd (lib : Lib) (w : World) (c : Nat)
    (hc : w.commands[c]? = none) :
    SetCommandFlags lib w c = .panicked .nilDereference w := by
  unfold SetCommandFlags
  cases hr : List.range w.FlagRegistry.length with
  | nil => simp only [bindLoop, hc]
  | cons i rest => simp only [bindLoop, hc]

/-- What `SetCommandFlags` does on a command, whether it returns or panics. -/
theorem SetCommandFlags_spec (lib : Lib) (w : World) (c : Nat) (cmd : Command)
    (hc : w.commands[c]? = some cmd) :
    ∃ owned ps tail,
      owned ++ tail = applicableTo cmd.Use w.FlagRegistry ∧
      Grows cmd.Use w (SetCommandFlags lib w c).world ∧
      owned.map (SetCommandFlags lib w c).world.flagOf = ps.map some ∧
      (((SetCommandFlags lib w c).outcome ≠ none ∧
          (SetCommandFlags lib w c).world.commands
            = w.commands.set c { cmd with flags := cmd.flags ++ ps }) ∨
        (SetCommandFlags lib w c = .ok () (SetCommandFlags lib w c).world ∧ tail = [] ∧
          (SetCommandFlags lib w c).world.commands
            = w.commands.set c { cmd with
                flags := cmd.flags ++ ps,
                PersistentPreRunE := some (.closure owned) })) := by
  obtain ⟨owned, ps, tail, h1, h2, h3, h4, h5⟩ :=
    bindLoop_spec lib c (List.range w.FlagRegistry.length) [] w cmd hc
  obtain ⟨hclt, _⟩ := List.getElem?_eq_some.mp hc
  refine ⟨owned, ps, tail, h1, ?_⟩
  cases hb : bindLoop lib c (List.range w.FlagRegistry.length) [] w with
  | panicked why w1 =>
    rw [hb] at h2 h3 h4
    have hs : SetCommandFlags lib w c = .panicked why w1 := by
      simp only [SetCommandFlags, hb]
    rw [hs]
    exact ⟨h2, h4, Or.inl ⟨by simp [BindResult.outcome], h3⟩⟩
  | ok a w1 =>
    rw [hb] at h2 h3 h4
    obtain ⟨ha, ht⟩ := h5 a w1 hb
    simp only [BindResult.world] at h2 h3 h4
    have hc1 : w1.commands[c]? = some { cmd with flags := cmd.flags ++ ps } := by
      rw [h3]; simp [hclt]
    have hs : SetCommandFlags lib w c = .ok () { w1 with
        commands := w1.commands.set c { cmd with
          flags := cmd.flags ++ ps, PersistentPreRunE := some (.closure owned) } } := by
      simp only [SetCommandFlags, hb, hc1, ha, List.nil_append]
    rw [hs]
    refine ⟨⟨h2.viper, h2.heap, h2.len, h2.reg⟩, h4, Or.inr ⟨rfl, ht, ?_⟩⟩
    simp only [BindResult.world]
    rw [h3, List.set_set]

theorem isApplicable_iff (use : String) (registry : List Flag) (i : Nat) :
    isApplicable use registry i = true ↔
      ∃ fl, registry[i]? = some fl ∧ use ∈ fl.DefinedOn := by
  unfold isApplicable IsStringInArray
  cases h : registry[i]? with
  | none => simp
  | some fl => simp

theorem Grows.applicableTo_eq (use : String) (w w1 : World) (h : Grows use w w1) :
    applicableTo use w1.FlagRegistry = applicableTo use w.FlagRegistry := by
  unfold applicableTo
  rw [h.len]
  exact List.filter_congr (fun i _ => Grows.isApplicable_eq use w w1 h i)

theorem mem_applicableTo (use : String) (registry : List Flag) (i : Nat) :
    i ∈ applicableTo use registry ↔
      ∃ fl, registry[i]? = some fl ∧ use ∈ fl.DefinedOn := by
  unfold applicableTo
  rw [List.mem_filter, isApplicable_iff]
  constructor
  · exact fun h => h.2
  · intro h
    refine ⟨?_, h⟩
    obtain ⟨fl, hfl, _⟩ := h
    obtain ⟨hlt, _⟩ := List.getElem?_eq_some.mp hfl
    exact List.mem_range.mpr hlt

/-! ## Materialization: the properties of the specification -/

/-- C1 (idempotent materialization).  For every descriptor whose construction
operation resolves, in any cache state and on any heap, `flag()` returns a flag
object and leaves it in the cache slot, and a second call returns the very same
object while changing neither the descriptor nor the heap: nothing is
constructed again. -/
theorem flag_idempotent (lib : Lib) (fl : Flag) (heap : List PFlag)
    (h : fl.resolves lib = true) :
    ∃ p fl1 heap1, fl.flag lib heap = .ok p fl1 heap1 ∧ fl1.pflag = some p ∧
      fl1.flag lib heap1 = .ok p fl1 heap1 := by
  cases hp : fl.pflag with
  | some q =>
    exact ⟨q, fl, heap, Flag.flag_cached lib fl heap q hp, hp,
      Flag.flag_cached lib fl heap q hp⟩
  | none =>
    obtain ⟨f, hf⟩ := Flag.flag_fresh lib fl heap hp h
    exact ⟨_, _, _, hf, rfl, Flag.flag_cached lib _ _ _ rfl⟩

theorem flag_idempotent_witness :
    Flag.resolves specLib outputFlag = true ∧
      ∃ p fl1 heap1, outputFlag.flag specLib [] = .ok p fl1 heap1 ∧ fl1.pflag = some p ∧
        fl1.flag specLib heap1 = .ok p fl1 heap1 :=
  ⟨by decide, flag_idempotent specLib outputFlag [] (by decide)⟩

/-- C6 (unknown operation rejection).  For every reachable descriptor whose
construction operation does not resolve, nothing is cached and `flag()` panics,
leaving the descriptor and the heap as they were; when the operation names no
method of the flag set at all, the panic is that of `Call` on the zero
`reflect.Value`.  It never returns a flag. -/
theorem flag_unknown_operation_panics (lib : Lib) (fl : Flag) (heap : List PFlag)
    (hreach : Flag.Reachable lib fl) (hr : fl.resolves lib = false) :
    fl.pflag = none ∧
      ∃ why, fl.flag lib heap = .panicked why fl heap ∧
        (lib.methodByName fl.FlagAddMethod = none → why = .callOnZeroValue) := by
  have hn : fl.pflag = none := by
    cases hp : fl.pflag with
    | none => rfl
    | some q =>
      have := Flag.Reachable.cached_resolves lib fl hreach (by simp [hp])
      rw [hr] at this
      cases this
  exact ⟨hn, Flag.flag_unresolved lib fl heap hn hr⟩

theorem flag_unknown_operation_panics_witness :
    specLib.methodByName unknownOpFlag.FlagAddMethod = none ∧
      unknownOpFlag.flag specLib [] = .panicked .callOnZeroValue unknownOpFlag [] := by
  obtain ⟨_, why, h1, h2⟩ := flag_unknown_operation_panics specLib unknownOpFlag []
    (Flag.Reachable.literal _ rfl) (by decide)
  refine ⟨rfl, ?_⟩
  rw [h1, h2 rfl]

/-! ## Binding: the properties of the specification -/

/-- C2 (command isolation).  For every registry, every command and every
descriptor whose `DefinedOn` does not contain the command's `Use`, whether
`SetCommandFlags` returns or panics: the flags it attached are the cached flags
of a list `owned` of descriptors that does not contain this one, `owned` is
what the installed hook records, the descriptor is left as it was (not even
materialized), and a flag it already had, shared with no other descriptor and
not in the flag set before, is not in the flag set afterwards. -/
theorem SetCommandFlags_isolation (lib : Lib) (w : World) (c : Nat) (cmd : Command)
    (i : Nat) (fl : Flag) (hc : w.commands[c]? = some cmd)
    (hi : w.FlagRegistry[i]? = some fl) (hn : cmd.Use ∉ fl.DefinedOn) :
    ∃ owned ps cmd1,
      (SetCommandFlags lib w c).world.commands[c]? = some cmd1 ∧
      cmd1.flags = cmd.flags ++ ps ∧
      owned.map (SetCommandFlags lib w c).world.flagOf = ps.map some ∧
      i ∉ owned ∧
      (SetCommandFlags lib w c).world.FlagRegistry[i]? = some fl ∧
      ((SetCommandFlags lib w c).outcome = none →
        cmd1.PersistentPreRunE = some (.closure owned)) ∧
      (∀ p, fl.pflag = some p → p < w.heap.length → p ∉ cmd.flags →
        (∀ (j : Nat) (flj : Flag), j ≠ i → w.FlagRegistry[j]? = some flj →
          flj.pflag ≠ some p) →
        p ∉ cmd1.flags) := by
  obtain ⟨owned, ps, tail, h1, h2, h3, h4⟩ := SetCommandFlags_spec lib w c cmd hc
  obtain ⟨hclt, _⟩ := List.getElem?_eq_some.mp hc
  have hfalse : IsStringInArray cmd.Use fl.DefinedOn = false := by
    simpa [IsStringInArray] using hn
  have hio : i ∉ owned := by
    intro hmem
    have : i ∈ applicableTo cmd.Use w.FlagRegistry := by
      rw [← h1]; exact List.mem_append_left _ hmem
    obtain ⟨fl2, e, hin⟩ := (mem_applicableTo _ _ _).mp this
    rw [hi] at e
    injection e with e
    subst e
    exact hn hin
  have hreg : (SetCommandFlags lib w c).world.FlagRegistry[i]? = some fl := by
    obtain ⟨q, e, _, hq, _⟩ := h2.reg i fl hi
    rw [e, hq hfalse, Flag.with_pflag_self]
  have key : ∀ cmd1 : Command, cmd1.flags = cmd.flags ++ ps →
      ∀ p, fl.pflag = some p → p < w.heap.length → p ∉ cmd.flags →
        (∀ (j : Nat) (flj : Flag), j ≠ i → w.FlagRegistry[j]? = some flj →
          flj.pflag ≠ some p) →
        p ∉ cmd1.flags := by
    intro cmd1 hflags p _ hlt hnot hshare hmem
    rw [hflags, List.mem_append] at hmem
    rcases hmem with hmem | hmem
    · exact hnot hmem
    · have : some p ∈ ps.map some := List.mem_map_of_mem _ hmem
      rw [← h3, List.mem_map] at this
      obtain ⟨j, hj, hfo⟩ := this
      have hji : j ≠ i := fun e => hio (e ▸ hj)
      cases hwj : w.FlagRegistry[j]? with
      | none =>
        have : (SetCommandFlags lib w c).world.FlagRegistry[j]? = none := by
          rw [List.getElem?_eq_none_iff] at hwj ⊢
          rw [h2.len]; exact hwj
        simp [World.flagOf, this] at hfo
      | some flj =>
        obtain ⟨q, e, _, _, hq⟩ := h2.reg j flj hwj
        have hqp : q = some p := by simpa [World.flagOf, e] using hfo
        rcases hq with hq | ⟨a, ha, hle⟩
        · exact hshare j flj hji hwj (hq ▸ hqp)
        · rw [ha] at hqp
          injection hqp with hqp
          omega
  rcases h4 with ⟨hout, hcmds⟩ | ⟨hok, _, hcmds⟩
  · refine ⟨owned, ps, { cmd with flags := cmd.flags ++ ps }, ?_, rfl, h3, hio, hreg,
      fun h => absurd h hout, key _ rfl⟩
    rw [hcmds]; simp [hclt]
  · refine ⟨owned, ps,
      { cmd with flags := cmd.flags ++ ps, PersistentPreRunE := some (.closure owned) },
      ?_, rfl, h3, hio, hreg, fun _ => rfl, key _ rfl⟩
    rw [hcmds]; simp [hclt]

theorem SetCommandFlags_isolation_witness :
    "scan" ∉ outputFlag.DefinedOn ∧
      ((SetCommandFlags specLib demoWorld 2).world.commands[2]?).map (fun cmd => cmd.flags)
        = some [] ∧
      ∃ owned ps cmd1,
        (SetCommandFlags specLib demoWorld 2).world.commands[2]? = some cmd1 ∧
        cmd1.flags = [] ++ ps ∧
        owned.map (SetCommandFlags specLib demoWorld 2).world.flagOf = ps.map some ∧
        0 ∉ owned ∧
        (SetCommandFlags specLib demoWorld 2).world.FlagRegistry[0]? = some outputFlag ∧
        ((SetCommandFlags specLib demoWorld 2).outcome = none →
          cmd1.PersistentPreRunE = some (.closure owned)) ∧
        (∀ p, outputFlag.pflag = some p → p < demoWorld.heap.length → p ∉ [] →
          (∀ (j : Nat) (flj : Flag), j ≠ 0 → demoWorld.FlagRegistry[j]? = some flj →
            flj.pflag ≠ some p) →
          p ∉ cmd1.flags) :=
  ⟨by decide, by decide,
    SetCommandFlags_isolation specLib demoWorld 2 ⟨"scan", [], some 0, none, none⟩ 0
      outputFlag (by decide) (by decide) (by decide)⟩

/-- C3, as stated, fails: with a registry holding `output` and then a
descriptor applicable to `list` whose construction operation is unknown,
binding `list` panics after attaching `output` alone; the applicable
descriptors are those at indices 0 and 1, the flag set holds one flag, and no
hook is installed. -/
theorem SetCommandFlags_order_counterexample :
    applicableTo "list" unknownOpWorld.FlagRegistry = [0, 1] ∧
      (SetCommandFlags specLib unknownOpWorld 1).outcome = some .callOnZeroValue ∧
      ((SetCommandFlags specLib unknownOpWorld 1).world.commands[1]?).map
        (fun cmd => (cmd.flags, cmd.PersistentPreRunE)) = some ([0], none) := by
  decide

/-- C3, amended (registry-order preservation).  Whenever `SetCommandFlags`
returns, the flags it appended to the command's flag set are the cached flags
of the descriptors whose `DefinedOn` contains the command's `Use`, one per
descriptor, in increasing registry index; this list of descriptors is what the
installed hook records, registry entries differ from before in their cache
slots only, and the same descriptors are the applicable ones afterwards. -/
theorem SetCommandFlags_attaches_in_registry_order (lib : Lib) (w w1 : World) (c : Nat)
    (h : SetCommandFlags lib w c = .ok () w1) :
    ∃ cmd cmd1 ps,
      w.commands[c]? = some cmd ∧ w1.commands[c]? = some cmd1 ∧
      cmd1.flags = cmd.flags ++ ps ∧
      (applicableTo cmd.Use w.FlagRegistry).map w1.flagOf = ps.map some ∧
      cmd1.PersistentPreRunE = some (.closure (applicableTo cmd.Use w.FlagRegistry)) ∧
      (applicableTo cmd.Use w.FlagRegistry).Pairwise (fun i j => i < j) ∧
      (∀ i, i ∈ applicableTo cmd.Use w.FlagRegistry ↔
        ∃ fl, w.FlagRegistry[i]? = some fl ∧ cmd.Use ∈ fl.DefinedOn) ∧
      (∀ (i : Nat) (fl : Flag), w.FlagRegistry[i]? = some fl →
        ∃ q, w1.FlagRegistry[i]? = some { fl with pflag := q }) ∧
      applicableTo cmd1.Use w1.FlagRegistry = applicableTo cmd.Use w.FlagRegistry := by
  cases hc : w.commands[c]? with
  | none =>
    rw [SetCommandFlags_nil_cmd lib w c hc] at h
    cases h
  | some cmd =>
    obtain ⟨hclt, _⟩ := List.getElem?_eq_some.mp hc
    obtain ⟨owned, ps, tail, h1, h2, h3, h4⟩ := SetCommandFlags_spec lib w c cmd hc
    rw [h] at h2 h3 h4
    simp only [BindResult.world, BindResult.outcome] at h2 h3 h4
    rcases h4 with ⟨hout, _⟩ | ⟨_, ht, hcmds⟩
    · exact absurd rfl hout
    · subst ht
      rw [List.append_nil] at h1
      subst h1
      refine ⟨cmd, { cmd with flags := cmd.flags ++ ps,
                               PersistentPreRunE := some (.closure
                                 (applicableTo cmd.Use w.FlagRegistry)) },
        ps, rfl, ?_, rfl, h3, rfl, ?_, mem_applicableTo _ _, ?_,
        Grows.applicableTo_eq _ _ _ h2⟩
      · rw [hcmds]; simp [hclt]
      · exact (List.pairwise_lt_range _).filter _
      · intro i fl hi
        obtain ⟨q, e, _⟩ := h2.reg i fl hi
        exact ⟨q, e⟩

theorem SetCommandFlags_attaches_in_registry_order_witness :
    (SetCommandFlags specLib startWorld 1).outcome = none ∧
      applicableTo "list" startWorld.FlagRegistry = [0, 1, 2, 3, 4, 5] ∧
      ((SetCommandFlags specLib startWorld 1).world.commands[1]?).map
        (fun cmd => cmd.flags) = some [0, 1, 2, 3, 4, 5] ∧
      (SetCommandFlags specLib startWorld 1).world.heap.map (fun f => f.Name)
        = ["region", "config", "detail", "all", "resources", "output"] ∧
      ∃ cmd cmd1 ps,
        startWorld.commands[1]? = some cmd ∧
        (SetCommandFlags specLib startWorld 1).world.commands[1]? = some cmd1 ∧
        cmd1.flags = cmd.flags ++ ps ∧
        (applicableTo cmd.Use startWorld.FlagRegistry).map
          (SetCommandFlags specLib startWorld 1).world.flagOf = ps.map some ∧
        cmd1.PersistentPreRunE
          = some (.closure (applicableTo cmd.Use startWorld.FlagRegistry)) :=
  ⟨by decide, by decide, by decide, by decide, by
    obtain ⟨cmd, cmd1, ps, h1, h2, h3, h4, h5, _⟩ :=
      SetCommandFlags_attaches_in_registry_order specLib startWorld
        (SetCommandFlags specLib startWorld 1).world 1 (by decide)
    exact ⟨cmd, cmd1, ps, h1, h2, h3, h4, h5⟩⟩

/-- C9, on the code: `output` declares the default "json" for command `list`
and the general default "table"; binding `list` returns, the flag attached has
the default "table", and running the hook binds that flag: the entry of
`DefValuePerCommand` is never read. -/
theorem perCommandDefault_ignored :
    outputFlagPerCommand.DefValuePerCommand = [("list", GoValue.str "json")] ∧
      (SetCommandFlags specLib perCommandWorld 1).outcome = none ∧
      (SetCommandFlags specLib perCommandWorld 1).world.heap.map (fun f => f.DefValue)
        = ["table"] ∧
      (invokeHook specLib 1 (SetCommandFlags specLib perCommandWorld 1).world 1 []).map
        (fun r => (r.world.heap.map (fun f => f.DefValue), r.world.viper))
        = some (["table"], [("output", some 0)]) := by
  decide

/-! ## The installed hook: the properties of the specification -/

/-- C4, as stated, fails: `list` is bound, its parent `redhawk` has an
error-reporting hook that fails with "parent failed" for every `(cmd, args)`,
`sub` among them; the hook installed on `list`, called with `(sub, [])`,
consults the parent of `sub`, which is `scan` and has no hook, calls no hook
and returns nil. -/
theorem hook_foreign_command_counterexample :
    (SetCommandFlags specLib foreignWorld 1).outcome = none ∧
      ((SetCommandFlags specLib foreignWorld 1).world.commands[1]?).map
        (fun cmd => (cmd.parent, cmd.PersistentPreRunE))
        = some (some 0, some (.closure [0])) ∧
      ((SetCommandFlags specLib foreignWorld 1).world.commands[0]?).map
        (fun cmd => cmd.PersistentPreRunE) = some (some (.external 0)) ∧
      (specLib.preRunE 0 3 []
        (pushFlagValues 3 [0] (SetCommandFlags specLib foreignWorld 1).world)).1
        = some "parent failed" ∧
      (invokeHookOn specLib 1 (SetCommandFlags specLib foreignWorld 1).world 1 3 []).map
        (fun r => (r.err, r.calls)) = some (none, []) := by
  decide

/-- C4, amended (hook chaining).  Let `c` be a command whose hook is the closure
of `SetCommandFlags`, called with `(cmd, args)`, and let `p` be the parent of
`cmd` (the parent of `c` when `cmd` is `c`).  If the error-reporting hook of
`p`, run with `(cmd, args)` once the flag values are pushed, returns the error
`e`, then the hook of `c` calls the hook of `p` with exactly `(cmd, args)` and
returns the same `e`, with the world as the parent's hook left it. -/
theorem hook_propagates_parent_error (lib : Lib) (fuel : Nat) (w : World) (c cmd : Nat)
    (args : List String) (owner x : Command) (owned : List Nat) (p : Nat)
    (parent : Command) (hookP : HookE) (e : String) (w2 : World)
    (calls : List HookCall)
    (hc : w.commands[c]? = some owner)
    (hh : owner.PersistentPreRunE = some (.closure owned))
    (hx : w.commands[cmd]? = some x)
    (hp : x.parent = some p) (hP : w.commands[p]? = some parent)
    (hE : parent.PersistentPreRunE = some hookP)
    (hfail : runPreRunE lib fuel hookP cmd args (pushFlagValues cmd owned w)
      = some ⟨some e, w2, calls⟩) :
    invokeHookOn lib (fuel + 1) w c cmd args
      = some ⟨some e, w2, ⟨p, true, cmd, args⟩ :: calls⟩ := by
  rw [invokeHookOn_closure lib _ w c cmd args owner owned hc hh,
    runPreRunE_parent_E lib fuel w cmd args x owned p parent hookP hx hp hP hE, hfail]
  rfl

theorem hook_propagates_parent_error_witness :
    invokeHookOn specLib 1 (SetCommandFlags specLib foreignWorld 1).world 1 1 ["--all"]
        = some ⟨some "parent failed",
            pushFlagValues 1 [0] (SetCommandFlags specLib foreignWorld 1).world,
            [⟨0, true, 1, ["--all"]⟩]⟩ ∧
      invokeHookOn specLib 1 (SetCommandFlags specLib foreignWorld 1).world 1 2 ["--all"]
        = some ⟨some "parent failed",
            pushFlagValues 2 [0] (SetCommandFlags specLib foreignWorld 1).world,
            [⟨0, true, 2, ["--all"]⟩]⟩ :=
  ⟨hook_propagates_parent_error specLib 0 (SetCommandFlags specLib foreignWorld 1).world
      1 1 ["--all"] ⟨"list", [0], some 0, some (.closure [0]), none⟩
      ⟨"list", [0], some 0, some (.closure [0]), none⟩ [0] 0
      ⟨"redhawk", [], none, some (.external 0), none⟩ (.external 0) "parent failed"
      (pushFlagValues 1 [0] (SetCommandFlags specLib foreignWorld 1).world) []
      (by decide) rfl (by decide) rfl (by decide) rfl (by decide),
    hook_propagates_parent_error specLib 0 (SetCommandFlags specLib foreignWorld 1).world
      1 2 ["--all"] ⟨"list", [0], some 0, some (.closure [0]), none⟩
      ⟨"scan", [], some 0, none, none⟩ [0] 0
      ⟨"redhawk", [], none, some (.external 0), none⟩ (.external 0) "parent failed"
      (pushFlagValues 2 [0] (SetCommandFlags specLib foreignWorld 1).world) []
      (by decide) rfl (by decide) rfl (by decide) rfl (by decide)⟩

/-- C5, as stated, fails: `list` is bound, its parent's hook fails, and after
the hook of `list` has returned that failure the store, empty before, holds
the binding of `output` pushed by the hook. -/
theorem hook_parent_failure_counterexample :
    (SetCommandFlags specLib demoWorld 1).outcome = none ∧
      (SetCommandFlags specLib demoWorld 1).world.viper = [] ∧
      (invokeHook specLib 1 (SetCommandFlags specLib demoWorld 1).world 1 []).map
        (fun r => (r.err, r.world.viper))
        = some (some "parent failed", [("output", some 0)]) := by
  decide

/-- C5, amended.  When the parent's error-reporting hook fails, the hook of `c`
has already pushed one binding per owned flag, in order, under the flag's name:
the parent's hook runs on the store that holds them, and the hook of `c`
returns the parent's error with the world exactly as the parent's hook left
it, so nothing is taken back. -/
theorem hook_pushes_before_parent_failure (lib : Lib) (fuel : Nat) (w : World) (c : Nat)
    (args : List String) (cmd : Command) (owned : List Nat) (p : Nat) (parent : Command)
    (hookP : HookE) (e : String) (w2 : World) (calls : List HookCall)
    (hc : w.commands[c]? = some cmd)
    (hh : cmd.PersistentPreRunE = some (.closure owned))
    (hv : ∀ i ∈ owned, i < w.FlagRegistry.length)
    (hp : cmd.parent = some p) (hP : w.commands[p]? = some parent)
    (hE : parent.PersistentPreRunE = some hookP)
    (hfail : runPreRunE lib fuel hookP c args (pushFlagValues c owned w)
      = some ⟨some e, w2, calls⟩) :
    ∃ pushed,
      List.Forall₂ (fun i b => ∃ fl, w.FlagRegistry[i]? = some fl ∧
        b = (fl.Name, lookupFlag w c fl.Name)) owned pushed ∧
      (pushFlagValues c owned w).viper = w.viper ++ pushed ∧
      (invokeHook lib (fuel + 1) w c args).map (fun r => (r.err, r.world))
        = some (some e, w2) := by
  obtain ⟨pushed, h1, h2⟩ := pushFlagValues_viper c w owned hv
  refine ⟨pushed, h2, h1, ?_⟩
  rw [invokeHook_closure lib _ w c args cmd owned hc hh,
    runPreRunE_parent_E lib fuel w c args cmd owned p parent hookP hc hp hP hE, hfail]
  rfl

theorem hook_pushes_before_parent_failure_witness :
    ∃ pushed,
      List.Forall₂ (fun i b => ∃ fl,
        (SetCommandFlags specLib demoWorld 1).world.FlagRegistry[i]? = some fl ∧
        b = (fl.Name, lookupFlag (SetCommandFlags specLib demoWorld 1).world 1 fl.Name))
        [0] pushed ∧
      (pushFlagValues 1 [0] (SetCommandFlags specLib demoWorld 1).world).viper
        = (SetCommandFlags specLib demoWorld 1).world.viper ++ pushed ∧
      (invokeHook specLib 1 (SetCommandFlags specLib demoWorld 1).world 1 []).map
        (fun r => (r.err, r.world))
        = some (some "parent failed",
            pushFlagValues 1 [0] (SetCommandFlags specLib demoWorld 1).world) :=
  hook_pushes_before_parent_failure specLib 0 (SetCommandFlags specLib demoWorld 1).world 1
    [] ⟨"list", [0], some 0, some (.closure [0]), none⟩ [0] 0
    ⟨"redhawk", [], none, some (.external 0), none⟩ (.external 0) "parent failed"
    (pushFlagValues 1 [0] (SetCommandFlags specLib demoWorld 1).world) []
    (by decide) rfl (by decide) rfl (by decide) rfl (by decide)

/-- C7 (value push once per owned flag).  Let `c` be a bound command: its hook
is the closure over the descriptors applicable to it, which is what
`SetCommandFlags` installs.  Each call of that hook, with any `(cmd, args)`,
first hands the store exactly one binding per owned flag, under the flag's
name, in registry order, and nothing else, and writes nothing but the store;
the flag handle of a binding is `cmd.Flags().Lookup` of the name, nil exactly
when the flag set of `cmd` holds no flag of that name.  Only then is the parent
of `cmd` consulted, and in each of the four cases (no parent, a parent with an
error-reporting hook, a parent with the plain hook only, a parent with no
hook) the run goes on from the store that holds the bindings: the pushes occur
whatever the parent's hook does. -/
theorem hook_pushes_once_per_owned_flag (lib : Lib) (fuel : Nat) (w : World) (c cmd : Nat)
    (args : List String) (owner x : Command)
    (hc : w.commands[c]? = some owner)
    (hh : owner.PersistentPreRunE
      = some (.closure (applicableTo owner.Use w.FlagRegistry)))
    (hx : w.commands[cmd]? = some x) :
    ∃ pushed,
      List.Forall₂ (fun i b => ∃ fl, w.FlagRegistry[i]? = some fl ∧
        b = (fl.Name, lookupFlag w cmd fl.Name))
        (applicableTo owner.Use w.FlagRegistry) pushed ∧
      (applicableTo owner.Use w.FlagRegistry).Pairwise (fun i j => i < j) ∧
      (∀ name, (lookupFlag w cmd name).isSome ↔
        ∃ q, q ∈ x.flags ∧ ∃ f, w.heap[q]? = some f ∧ f.Name = name) ∧
      (pushFlagValues cmd (applicableTo owner.Use w.FlagRegistry) w).viper
        = w.viper ++ pushed ∧
      (pushFlagValues cmd (applicableTo owner.Use w.FlagRegistry) w).FlagRegistry
        = w.FlagRegistry ∧
      (pushFlagValues cmd (applicableTo owner.Use w.FlagRegistry) w).heap = w.heap ∧
      (pushFlagValues cmd (applicableTo owner.Use w.FlagRegistry) w).commands
        = w.commands ∧
      (x.parent = none →
        invokeHookOn lib (fuel + 1) w c cmd args
          = some ⟨none, pushFlagValues cmd (applicableTo owner.Use w.FlagRegistry) w,
              []⟩) ∧
      (∀ (p : Nat) (parent : Command) (hookP : HookE), x.parent = some p →
        w.commands[p]? = some parent → parent.PersistentPreRunE = some hookP →
        invokeHookOn lib (fuel + 1) w c cmd args
          = (runPreRunE lib fuel hookP cmd args
              (pushFlagValues cmd (applicableTo owner.Use w.FlagRegistry) w)).map
              (fun r => ⟨r.err, r.world, ⟨p, true, cmd, args⟩ :: r.calls⟩)) ∧
      (∀ (p : Nat) (parent : Command) (id : Nat), x.parent = some p →
        w.commands[p]? = some parent → parent.PersistentPreRunE = none →
        parent.PersistentPreRun = some id →
        invokeHookOn lib (fuel + 1) w c cmd args
          = some ⟨none,
              lib.preRun id cmd args
                (pushFlagValues cmd (applicableTo owner.Use w.FlagRegistry) w),
              [⟨p, false, cmd, args⟩]⟩) ∧
      (∀ (p : Nat) (parent : Command), x.parent = some p →
        w.commands[p]? = some parent → parent.PersistentPreRunE = none →
        parent.PersistentPreRun = none →
        invokeHookOn lib (fuel + 1) w c cmd args
          = some ⟨none, pushFlagValues cmd (applicableTo owner.Use w.FlagRegistry) w,
              []⟩) := by
  have hv : ∀ i ∈ applicableTo owner.Use w.FlagRegistry, i < w.FlagRegistry.length := by
    intro i hi
    obtain ⟨fl, hfl, _⟩ := (mem_applicableTo _ _ _).mp hi
    exact (List.getElem?_eq_some.mp hfl).1
  obtain ⟨pushed, h1, h2⟩ := pushFlagValues_viper cmd w _ hv
  obtain ⟨f1, f2, f3⟩ :=
    pushFlagValues_frame cmd (applicableTo owner.Use w.FlagRegistry) w
  refine ⟨pushed, h2, (List.pairwise_lt_range _).filter _,
    fun name => lookupFlag_isSome_iff w cmd x name hx, h1, f1, f2, f3, ?_, ?_, ?_, ?_⟩
  · intro hp
    rw [invokeHookOn_closure lib _ w c cmd args owner _ hc hh,
      runPreRunE_no_parent lib fuel w cmd args x _ hx hp]
  · intro p parent hookP hp hP hE
    rw [invokeHookOn_closure lib _ w c cmd args owner _ hc hh,
      runPreRunE_parent_E lib fuel w cmd args x _ p parent hookP hx hp hP hE]
  · intro p parent id hp hP hE hR
    rw [invokeHookOn_closure lib _ w c cmd args owner _ hc hh,
      runPreRunE_parent_plain lib fuel w cmd args x _ p parent id hx hp hP hE hR]
  · intro p parent hp hP hE hR
    rw [invokeHookOn_closure lib _ w c cmd args owner _ hc hh,
      runPreRunE_parent_bare lib fuel w cmd args x _ p parent hx hp hP hE hR]

theorem hook_pushes_once_per_owned_flag_witness :
    (SetCommandFlags specLib demoWorld 1).outcome = none ∧
      (invokeHookOn specLib 1 (SetCommandFlags specLib demoWorld 1).world 1 1 []).map
        (fun r => r.world.viper) = some [("output", some 0)] ∧
      (invokeHookOn specLib 1 (SetCommandFlags specLib plainWorld 1).world 1 1 []).map
        (fun r => r.world.viper) = some [("output", some 0)] ∧
      ∃ pushed,
        List.Forall₂ (fun i b => ∃ fl,
          (SetCommandFlags specLib demoWorld 1).world.FlagRegistry[i]? = some fl ∧
          b = (fl.Name, lookupFlag (SetCommandFlags specLib demoWorld 1).world 1 fl.Name))
          (applicableTo "list" (SetCommandFlags specLib demoWorld 1).world.FlagRegistry)
          pushed ∧
        (pushFlagValues 1
          (applicableTo "list" (SetCommandFlags specLib demoWorld 1).world.FlagRegistry)
          (SetCommandFlags specLib demoWorld 1).world).viper
          = (SetCommandFlags specLib demoWorld 1).world.viper ++ pushed := by
  obtain ⟨pushed, h1, _, _, h2, _⟩ := hook_pushes_once_per_owned_flag specLib 0
    (SetCommandFlags specLib demoWorld 1).world 1 1 []
    ⟨"list", [0], some 0, some (.closure [0]), none⟩
    ⟨"list", [0], some 0, some (.closure [0]), none⟩ (by decide) (by decide) (by decide)
  exact ⟨by decide, by decide, by decide, pushed, h1, h2⟩

/-- C8, as stated, fails: `list` is bound and its parent `redhawk` has the
plain hook only; the hook installed on `list`, called with `(sub, [])`,
consults the parent of `sub`, which is `scan` and has no hook: the plain hook
of the parent of `list` is not called, although the hook returns nil. -/
theorem hook_plain_parent_counterexample :
    (SetCommandFlags specLib foreignPlainWorld 1).outcome = none ∧
      ((SetCommandFlags specLib foreignPlainWorld 1).world.commands[1]?).map
        (fun cmd => (cmd.parent, cmd.PersistentPreRunE))
        = some (some 0, some (.closure [0])) ∧
      ((SetCommandFlags specLib foreignPlainWorld 1).world.commands[0]?).map
        (fun cmd => (cmd.PersistentPreRunE, cmd.PersistentPreRun))
        = some (none, some 7) ∧
      (invokeHookOn specLib 1 (SetCommandFlags specLib foreignPlainWorld 1).world 1 3
        []).map (fun r => (r.err, r.calls)) = some (none, []) := by
  decide

/-- C8, amended (best-effort parent hook).  For a bound command `c` whose hook
is called with `(cmd, args)`, the parent consulted is that of `cmd` (the parent
of `c` when `cmd` is `c`): if it has no error-reporting hook but a plain one,
the hook of `c` calls that plain hook once with `(cmd, args)` and returns nil;
if it has an error-reporting hook, a run of the hook of `c` that returns has
made a single call, to that error-reporting hook with `(cmd, args)`, and none
to the plain one, and it does return, with that hook's result, when the hook is
one of other code; if `cmd` has no parent the hook calls no hook and returns
nil. -/
theorem hook_best_effort_parent (lib : Lib) (fuel : Nat) (w : World) (c cmd : Nat)
    (args : List String) (owner x : Command) (owned : List Nat)
    (hc : w.commands[c]? = some owner)
    (hh : owner.PersistentPreRunE = some (.closure owned))
    (hx : w.commands[cmd]? = some x) :
    (∀ (p : Nat) (parent : Command) (id : Nat), x.parent = some p →
        w.commands[p]? = some parent → parent.PersistentPreRunE = none →
        parent.PersistentPreRun = some id →
        invokeHookOn lib (fuel + 1) w c cmd args
          = some ⟨none, lib.preRun id cmd args (pushFlagValues cmd owned w),
              [⟨p, false, cmd, args⟩]⟩) ∧
      (∀ (p : Nat) (parent : Command) (hookP : HookE) (r : HookOutcome),
        x.parent = some p → w.commands[p]? = some parent →
        parent.PersistentPreRunE = some hookP →
        invokeHookOn lib (fuel + 1) w c cmd args = some r →
        r.calls = [⟨p, true, cmd, args⟩]) ∧
      (∀ (p : Nat) (parent : Command) (id : Nat), x.parent = some p →
        w.commands[p]? = some parent →
        parent.PersistentPreRunE = some (.external id) →
        invokeHookOn lib (fuel + 1) w c cmd args
          = some ⟨(lib.preRunE id cmd args (pushFlagValues cmd owned w)).1,
              (lib.preRunE id cmd args (pushFlagValues cmd owned w)).2,
              [⟨p, true, cmd, args⟩]⟩) ∧
      (x.parent = none →
        invokeHookOn lib (fuel + 1) w c cmd args
          = some ⟨none, pushFlagValues cmd owned w, []⟩) := by
  refine ⟨?_, ?_, ?_, ?_⟩
  · intro p parent id hp hP hE hR
    rw [invokeHookOn_closure lib _ w c cmd args owner owned hc hh,
      runPreRunE_parent_plain lib fuel w cmd args x owned p parent id hx hp hP hE hR]
  · intro p parent hookP r hp hP hE hr
    rw [invokeHookOn_closure lib _ w c cmd args owner owned hc hh,
      runPreRunE_parent_E lib fuel w cmd args x owned p parent hookP hx hp hP hE] at hr
    cases hookP with
    | external id =>
      simp only [runPreRunE, Option.map] at hr
      injection hr with hr
      rw [← hr]
    | closure ownedP =>
      have hf := pushFlagValues_frame cmd owned w
      rw [runPreRunE_closure_parent_diverges lib cmd args x p parent ownedP hp hE fuel
        ownedP (pushFlagValues cmd owned w) (by rw [hf.2.2]; exact hx)
        (by rw [hf.2.2]; exact hP)] at hr
      cases hr
  · intro p parent id hp hP hE
    rw [invokeHookOn_closure lib _ w c cmd args owner owned hc hh,
      runPreRunE_parent_E lib fuel w cmd args x owned p parent _ hx hp hP hE]
    simp only [runPreRunE, Option.map]
  · intro hp
    rw [invokeHookOn_closure lib _ w c cmd args owner owned hc hh,
      runPreRunE_no_parent lib fuel w cmd args x owned hx hp]

theorem hook_best_effort_parent_witness :
    invokeHookOn specLib 1 (SetCommandFlags specLib foreignPlainWorld 1).world 1 1 ["-A"]
        = some ⟨none,
            specLib.preRun 7 1 ["-A"]
              (pushFlagValues 1 [0] (SetCommandFlags specLib foreignPlainWorld 1).world),
            [⟨0, false, 1, ["-A"]⟩]⟩ ∧
      invokeHookOn specLib 1 (SetCommandFlags specLib foreignPlainWorld 1).world 1 2 ["-A"]
        = some ⟨none,
            specLib.preRun 7 2 ["-A"]
              (pushFlagValues 2 [0] (SetCommandFlags specLib foreignPlainWorld 1).world),
            [⟨0, false, 2, ["-A"]⟩]⟩ ∧
      invokeHookOn specLib 1 (SetCommandFlags specLib rootWorld 0).world 0 0 ["-A"]
        = some ⟨none, pushFlagValues 0 [0] (SetCommandFlags specLib rootWorld 0).world,
            []⟩ :=
  ⟨(hook_best_effort_parent specLib 0 (SetCommandFlags specLib foreignPlainWorld 1).world
      1 1 ["-A"] ⟨"list", [0], some 0, some (.closure [0]), none⟩
      ⟨"list", [0], some 0, some (.closure [0]), none⟩ [0] (by decide) rfl (by decide)).1
      0 ⟨"redhawk", [], none, none, some 7⟩ 7 rfl (by decide) rfl rfl,
    (hook_best_effort_parent specLib 0 (SetCommandFlags specLib foreignPlainWorld 1).world
      1 2 ["-A"] ⟨"list", [0], some 0, some (.closure [0]), none⟩
      ⟨"scan", [], some 0, none, none⟩ [0] (by decide) rfl (by decide)).1
      0 ⟨"redhawk", [], none, none, some 7⟩ 7 rfl (by decide) rfl rfl,
    (hook_best_effort_parent specLib 0 (SetCommandFlags specLib rootWorld 0).world 0 0
      ["-A"] ⟨"list", [0], none, some (.closure [0]), none⟩
      ⟨"list", [0], none, some (.closure [0]), none⟩ [0] (by decide) rfl
      (by decide)).2.2.2 rfl⟩

/-- C10 (only the immediate parent is consulted).  For a bound command `c`
whose parent has neither hook form set, the hook of `c` returns nil having
called no hook at all, in every world: whatever hooks the ancestors above the
parent have, failing ones included, none is run. -/
theorem hook_consults_only_immediate_parent (lib : Lib) (fuel : Nat) (w : World)
    (c : Nat) (args : List String) (cmd : Command) (owned : List Nat) (p : Nat)
    (parent : Command) (hc : w.commands[c]? = some cmd)
    (hh : cmd.PersistentPreRunE = some (.closure owned))
    (hp : cmd.parent = some p) (hP : w.commands[p]? = some parent)
    (hE : parent.PersistentPreRunE = none) (hR : parent.PersistentPreRun = none) :
    invokeHook lib (fuel + 1) w c args
      = some ⟨none, pushFlagValues c owned w, []⟩ := by
  rw [invokeHook_closure lib _ w c args cmd owned hc hh,
    runPreRunE_parent_bare lib fuel w c args cmd owned p parent hc hp hP hE hR]

theorem hook_consults_only_immediate_parent_witness :
    ((SetCommandFlags specLib deepWorld 2).world.commands[0]?).map
        (fun root => root.PersistentPreRunE) = some (some (.external 0)) ∧
      (specLib.preRunE 0 2 [] (SetCommandFlags specLib deepWorld 2).world).1
        = some "parent failed" ∧
      invokeHook specLib 1 (SetCommandFlags specLib deepWorld 2).world 2 []
        = some ⟨none, pushFlagValues 2 [0] (SetCommandFlags specLib deepWorld 2).world,
            []⟩ :=
  ⟨by decide, by decide,
    hook_consults_only_immediate_parent specLib 0 (SetCommandFlags specLib deepWorld 2).world
      2 [] ⟨"list", [0], some 1, some (.closure [0]), none⟩ [0] 1
      ⟨"resources", [], some 0, none, none⟩ (by decide) rfl rfl (by decide) rfl rfl⟩

end Redhawk
